import Mathlib

/-!
Shallow embedding of the T&C analyzer core (`src/analyzer.py`): the document
chunker, the financial-term classifier, the LLM-response parser, the per-chunk
result merger, and the metrics calculator.

Modelling conventions:
* Python `str` values carrying document text are modelled as `List Char`
  (Python counts code points, as does `List.length`); record fields that hold
  short tags ("High", findings strings) are Lean `String`s.
* Python exceptions (`list.index` raising `ValueError` in
  `merge_analysis_results`) are modelled with `Option`: `none` means the call
  raised past its boundary.
* `float` arithmetic of `calculate_metrics` is modelled over `ℚ` (the divisions
  involved are exact; only their comparison with 0 and 100 matters here).
* Python regex searches of `process_analysis_response` are modelled by explicit
  leftmost-match scanners, documented at each definition.
-/

namespace TC

/-- The fixed category list `ANALYSIS_CATEGORIES` of `src/analyzer.py`. -/
def ANALYSIS_CATEGORIES : List String :=
  ["Introduction and Overview",
   "User Rights and Responsibilities",
   "Privacy Policy and Data Usage",
   "Payment Terms",
   "Intellectual Property Rights",
   "Limitation of Liability",
   "Termination and Suspension",
   "Dispute Resolution",
   "Amendments and Updates",
   "Governing Law",
   "Force Majeure",
   "Severability",
   "User Consent for Marketing",
   "Specific Rights for Certain Regions",
   "Quality Assurance and Performance",
   "Audits and Monitoring",
   "Regulatory Compliance",
   "Product Safety Certifications",
   "Liability for Regulatory Breaches",
   "Third-Party Audits",
   "International Standards Compliance",
   "Regulatory Violation Recourse",
   "Delivery Process and Timeframes",
   "Delivery Costs",
   "Delivery Risk and Responsibility",
   "Delayed or Failed Deliveries",
   "Delivery Location and Restrictions",
   "International Delivery",
   "Returns and Delivery Failures",
   "Acceptance of Delivery",
   "Subscription Services Delivery",
   "Failed Delivery Handling"]

/-- The constant `risk_levels = ['None', 'Low', 'Medium', 'High']`. -/
def risk_levels : List String := ["None", "Low", "Medium", "High"]

/-- Python `needle` is a leading segment of `l` (used to model regex literal
matches and `str.split` scanning). -/
def beginsWith : List Char → List Char → Bool
  | [], _ => true
  | _ :: _, [] => false
  | a :: as, b :: bs => a == b && beginsWith as bs

/-- Python `needle in hay` for strings: `needle` occurs as a contiguous
substring of `hay`. -/
def containsSub (needle : List Char) : List Char → Bool
  | [] => needle.isEmpty
  | c :: rest => beginsWith needle (c :: rest) || containsSub needle rest

/-- Python `str.strip()`: drop leading and trailing whitespace. -/
def trimCL (l : List Char) : List Char :=
  ((l.dropWhile Char.isWhitespace).reverse.dropWhile Char.isWhitespace).reverse

/-- The text after the first occurrence of `marker`, or `none` when `marker`
does not occur.  `afterFirst marker content = some tail` models
`content.split(marker)` having `len(sections) > 1`, with `tail` starting where
`sections[1]` starts. -/
def afterFirst (marker : List Char) : List Char → Option (List Char)
  | [] => none
  | c :: rest =>
    if beginsWith marker (c :: rest) then some ((c :: rest).drop marker.length)
    else afterFirst marker rest

/-- The text up to (excluding) the first occurrence of `marker`; the whole text
when `marker` does not occur.  `takeUntil "###" tail` models
`sections[1].split("###")[0]`: `sections[1]` ends exactly where the next
occurrence of the full section marker (itself starting with `###`) begins, so
cutting the tail at the first `###` yields the same segment. -/
def takeUntil (marker : List Char) : List Char → List Char
  | [] => []
  | c :: rest => if beginsWith marker (c :: rest) then [] else c :: takeUntil marker rest

/-- `text.split('\n\n')` of the chunker: leftmost, non-overlapping splitting on
the two-character separator; `"".split(sep) = ['']`. -/
def splitParas : List Char → List (List Char)
  | c1 :: c2 :: rest =>
    if c1 = '\n' ∧ c2 = '\n' then [] :: splitParas rest
    else
      match splitParas (c2 :: rest) with
      | g :: gs => (c1 :: g) :: gs
      | [] => [[c1]]
  | l => [l]

/-- The paragraph separator `"\n\n"` appended by `chunk_document`. -/
def paraSep : List Char := ['\n', '\n']

/-- The accumulation loop of `chunk_document` (lines 133-141 of
`src/analyzer.py`): state is the sealed `chunks` list and the running
`current_chunk` buffer; the final non-empty buffer is appended at the end. -/
def chunkLoop (chunk_size : Nat) : List (List Char) → List (List Char) → List Char → List (List Char)
  | [], chunks, current_chunk =>
    if current_chunk ≠ [] then chunks ++ [current_chunk] else chunks
  | para :: rest, chunks, current_chunk =>
    if current_chunk.length + para.length < chunk_size then
      chunkLoop chunk_size rest chunks (current_chunk ++ para ++ paraSep)
    else
      chunkLoop chunk_size rest (chunks ++ [current_chunk]) (para ++ paraSep)

/-- `chunk_document(text, chunk_size=8000)` of `src/analyzer.py`. -/
def chunk_document (text : List Char) (chunk_size : Nat := 8000) : List (List Char) :=
  chunkLoop chunk_size (splitParas text) [] []

/-- Concatenation of a list of text segments (for stating chunk coverage). -/
def concatAll : List (List Char) → List Char
  | [] => []
  | c :: rest => c ++ concatAll rest

/-- The `financial_keywords` list of `is_financial_term`. -/
def financial_keywords : List String :=
  ["fee", "cost", "price", "payment", "charge", "refund", "credit",
   "billing", "subscription", "money", "financial", "dollar", "rate",
   "expense", "pay", "compensation", "penalty", "fine"]

/-- `is_financial_term(phrase)`: some keyword occurs in `phrase.lower()`.
`str.lower()` is modelled per-character with `Char.toLower` (the keywords are
ASCII, where the two agree). -/
def is_financial_term (phrase : String) : Bool :=
  financial_keywords.any (fun keyword => containsSub keyword.data (phrase.data.map Char.toLower))

/-- A quoted phrase record `{'text': ..., 'is_financial': ...}`. -/
structure Phrase where
  text : String
  is_financial : Bool
deriving DecidableEq

/-- A per-category record `{'risk_level': ..., 'findings': ..., 'quoted_phrases': ...}`. -/
structure CatData where
  risk_level : String
  findings : String
  quoted_phrases : List Phrase
deriving DecidableEq

/-- A per-chunk analysis result: the Python dict mapping category names to
per-category records, modelled as an association list (unique keys in every
dict the program builds; lookup takes the first match). -/
abbrev AnalysisResult := List (String × CatData)

/-- Python `result[category]` / `category in result` on the dict. -/
def lookupCat (category : String) : List (String × CatData) → Option CatData
  | [] => none
  | e :: rest => if e.1 = category then some e.2 else lookupCat category rest

/-! ### Response parser (`process_analysis_response`)

The three regex searches are `re.search` (leftmost match) of
`RISK:\s*(High|Medium|Low|None)`, `FINDINGS:\s*(.+?)(?=QUOTES:|$)` and
`QUOTES:\s*(.+?)(?=###|$)`, the latter two with `re.DOTALL`.  In each, `\s*`
greedily consumes whitespace (backtracking past it cannot help, since the
continuation never starts with whitespace — except in the one case where the
lazy group must consume the final whitespace character, handled in
`groupAfter`), `(.+?)` lazily grows a non-empty group, and `$` (no MULTILINE)
matches at the end of the text or just before a final newline. -/

/-- The lookahead `(?=stop|$)` holds at the position whose remaining text is
`l`: `stop` starts here, or end of text, or just before a trailing newline. -/
def stopsAt (stop l : List Char) : Bool :=
  beginsWith stop l || l == [] || l == ['\n']

/-- The lazy group `(.+?)(?=stop|$)`: the shortest non-empty leading segment
after which the lookahead holds; `none` when the text is empty. -/
def lazyScan (stop : List Char) : List Char → Option (List Char)
  | [] => none
  | c :: rest =>
    if stopsAt stop rest then some [c]
    else (lazyScan stop rest).map (fun g => c :: g)

/-- `\s*(.+?)(?=stop|$)` applied to `r`: greedy whitespace run, then the lazy
group.  When `r` is non-empty but all whitespace, the regex engine backtracks
`\s*` by one character and the group captures that final character. -/
def groupAfter (stop : List Char) (r : List Char) : Option (List Char) :=
  match lazyScan stop (r.dropWhile Char.isWhitespace) with
  | some g => some g
  | none => r.getLast?.map (fun c => [c])

/-- `re.search(marker + "\s*(.+?)(?=stop|$)", text)` with DOTALL: the group of
the leftmost successful match. -/
def searchMarker (marker stop : List Char) : List Char → Option (List Char)
  | [] => none
  | c :: rest =>
    if beginsWith marker (c :: rest) then
      match groupAfter stop ((c :: rest).drop marker.length) with
      | some g => some g
      | none => searchMarker marker stop rest
    else searchMarker marker stop rest

/-- The alternation `(High|Medium|Low|None)` tried in pattern order. -/
def riskWord (l : List Char) : Option String :=
  if beginsWith "High".data l then some "High"
  else if beginsWith "Medium".data l then some "Medium"
  else if beginsWith "Low".data l then some "Low"
  else if beginsWith "None".data l then some "None"
  else none

/-- `re.search(r"RISK:\s*(High|Medium|Low|None)", text)`: group of the
leftmost occurrence of `RISK:` followed (after a whitespace run) by one of the
four tokens. -/
def riskSearch : List Char → Option String
  | [] => none
  | c :: rest =>
    if beginsWith "RISK:".data (c :: rest) then
      match riskWord (((c :: rest).drop 5).dropWhile Char.isWhitespace) with
      | some w => some w
      | none => riskSearch rest
    else riskSearch rest

mutual
/-- `re.findall(r'"([^"]*)"', text)` — `outsideQ` scans for an opening quote,
`insideQ` accumulates the group up to the closing quote (an unclosed final
quote yields no further matches). -/
def outsideQ : List Char → List (List Char)
  | [] => []
  | c :: rest => if c = '"' then insideQ [] rest else outsideQ rest

def insideQ (acc : List Char) : List Char → List (List Char)
  | [] => []
  | c :: rest => if c = '"' then acc.reverse :: outsideQ rest else insideQ (c :: acc) rest
end

/-- The QUOTES post-processing (lines 234-237): keep quotes with non-empty
`strip()`, record the stripped text and `is_financial_term` of the raw quote. -/
def parseQuotes (quotes_text : List Char) : List Phrase :=
  (outsideQ quotes_text).filterMap (fun q =>
    let t := trimCL q
    if t ≠ [] then some ⟨String.mk t, is_financial_term (String.mk q)⟩ else none)

/-- One iteration of the category loop of `process_analysis_response`
(lines 218-257).  The `except` arm of the loop (risk `Error`) is unreachable
here: every operation in the body is total.  When the section marker is
present, `section_content = sections[1].split("###")[0].strip()`; the three
field extractions follow, with their literal defaults. -/
def processCategory (content : List Char) (category : String) : CatData :=
  match afterFirst ("###" ++ category ++ "###").data content with
  | none => ⟨"None", "Not mentioned in document.", []⟩
  | some tail =>
    let section_content := trimCL (takeUntil "###".data tail)
    let risk_level := (riskSearch section_content).getD "Low"
    let findings :=
      match searchMarker "FINDINGS:".data "QUOTES:".data section_content with
      | some g => String.mk (trimCL g)
      | none => "No specific findings."
    let quoted_phrases :=
      match searchMarker "QUOTES:".data "###".data section_content with
      | some g => parseQuotes (trimCL g)
      | none => []
    ⟨risk_level, findings, quoted_phrases⟩

/-- `process_analysis_response(content)`: one entry per configured category,
in category-list order. -/
def process_analysis_response (content : String) : List (String × CatData) :=
  ANALYSIS_CATEGORIES.map (fun category => (category, processCategory content.data category))

/-! ### Merger (`merge_analysis_results`) -/

/-- Python `list.index` as a total function: `none` models the `ValueError`
raised when the element is absent. -/
def indexOf : List String → String → Option Nat
  | [], _ => none
  | a :: rest, x => if a = x then some 0 else (indexOf rest x).map (fun n => n + 1)

/-- Lines 277-278: update the accumulated risk level when the chunk's level
has a strictly larger index in `risk_levels`; `none` models the `ValueError`
from `risk_levels.index` on a level outside the list (e.g. `'Error'`). -/
def mergeRisk (accRisk chunkRisk : String) : Option String :=
  match indexOf risk_levels chunkRisk, indexOf risk_levels accRisk with
  | some i, some j => some (if j < i then chunkRisk else accRisk)
  | _, _ => none

/-- Lines 281-282: append the chunk's findings string unless it is one of the
two default strings. -/
def mergeFindings (accFindings : List String) (chunkFindings : String) : List String :=
  if chunkFindings ≠ "No specific findings." ∧ chunkFindings ≠ "Not mentioned in document." then
    accFindings ++ [chunkFindings]
  else accFindings

/-- Lines 285-289: append a phrase unless one with the same
`(text, is_financial)` pair is already present. -/
def addPhrase (acc : List Phrase) (p : Phrase) : List Phrase :=
  if acc.any (fun q => q.text == p.text && q.is_financial == p.is_financial) then acc
  else acc ++ [p]

/-- The in-progress merged record for one category: risk level, the list of
findings strings before joining, and the de-duplicated phrases. -/
structure MergeAcc where
  risk_level : String
  findings : List String
  quoted_phrases : List Phrase
deriving DecidableEq

/-- The initial per-category merged record (lines 267-271). -/
def initialAcc : MergeAcc := ⟨"None", [], []⟩

/-- Lines 274-289: fold one chunk result into the category's merged record;
a chunk that lacks the category contributes nothing. -/
def mergeStep (category : String) (acc : MergeAcc) (result : AnalysisResult) : Option MergeAcc :=
  match lookupCat category result with
  | none => some acc
  | some d =>
    match mergeRisk acc.risk_level d.risk_level with
    | none => none
    | some risk =>
      some ⟨risk, mergeFindings acc.findings d.findings,
            d.quoted_phrases.foldl addPhrase acc.quoted_phrases⟩

/-- The inner loop over `results_list` for one category. -/
def mergeCategoryAcc (category : String) (results_list : List AnalysisResult) : Option MergeAcc :=
  results_list.foldlM (mergeStep category) initialAcc

/-- `'\n'.join(parts)`. -/
def joinLines : List String → String
  | [] => ""
  | [s] => s
  | s :: rest => s ++ "\n" ++ joinLines rest

/-- Line 292: `'\n'.join(findings) if findings else "No specific findings."`. -/
def joinFindings (parts : List String) : String :=
  if parts = [] then "No specific findings." else joinLines parts

/-- Line 292 applied to the in-progress record: the final per-category record. -/
def finalizeAcc (acc : MergeAcc) : CatData :=
  ⟨acc.risk_level, joinFindings acc.findings, acc.quoted_phrases⟩

/-- The merged record for one category, `none` when the inner loop raised. -/
def mergeCategory (category : String) (results_list : List AnalysisResult) : Option CatData :=
  (mergeCategoryAcc category results_list).map finalizeAcc

/-- The three scores of `calculate_metrics`, over `ℚ`. -/
structure Metrics where
  complexity_score : ℚ
  financial_impact : ℚ
  unusual_terms_ratio : ℚ
deriving DecidableEq

/-- `calculate_metrics(analysis_results)` (lines 343-356): counts range over
the values of the given mapping; `total_categories` is the length of the
configured category list. -/
def calculate_metrics (analysis_results : List (String × CatData)) : Metrics :=
  let total_categories : Nat := ANALYSIS_CATEGORIES.length
  let risky_categories : Nat :=
    (analysis_results.filter (fun r =>
      r.2.risk_level == "High" || r.2.risk_level == "Medium")).length
  let financial_terms : Nat :=
    (analysis_results.map (fun r =>
      (r.2.quoted_phrases.filter (fun q => q.is_financial)).length)).sum
  let unusual_terms : Nat :=
    (analysis_results.map (fun r =>
      (r.2.quoted_phrases.filter (fun q => !q.is_financial)).length)).sum
  { complexity_score := (risky_categories : ℚ) / (total_categories : ℚ) * 100
    financial_impact :=
      (financial_terms : ℚ) / ((max 1 (financial_terms + unusual_terms) : Nat) : ℚ) * 100
    unusual_terms_ratio :=
      (unusual_terms : ℚ) / ((max 1 analysis_results.length : Nat) : ℚ) * 100 }

/-- The merged document-level result: the per-category records (in
category-list order) and the `'metrics'` entry added at line 296. -/
structure MergedResult where
  categories : List (String × CatData)
  metrics : Metrics
deriving DecidableEq

/-- `merge_analysis_results(results_list)` (lines 261-298): build every
category's merged record (the loop raises — `none` — if any chunk's stored
risk level is outside `risk_levels`), then attach the computed metrics. -/
def merge_analysis_results (results_list : List AnalysisResult) : Option MergedResult :=
  match ANALYSIS_CATEGORIES.mapM (fun category =>
      (mergeCategory category results_list).map (fun d => (category, d))) with
  | none => none
  | some cats => some ⟨cats, calculate_metrics cats⟩

/-! ### Specification-side definitions (for stating the claims) -/

/-- The rank of a risk level in the spec's total order None < Low < Medium < High. -/
def rankOf : String → Nat
  | "Low" => 1
  | "Medium" => 2
  | "High" => 3
  | _ => 0

/-- The maximum of two risk levels under the spec's total order. -/
def riskMaxSpec (a b : String) : String := if rankOf a < rankOf b then b else a

/-- The default-string normalization of §4.4: a merged category whose only
chunk said "Not mentioned in document." comes back as "No specific findings.". -/
def normalizeFindings (f : String) : String :=
  if f = "Not mentioned in document." then "No specific findings." else f

/-- A chunk result is valid when every stored risk level is one of the four
levels of `risk_levels` (the claims' validity condition). -/
abbrev ValidResult (r : AnalysisResult) : Prop :=
  ∀ e ∈ r, e.2.risk_level ∈ risk_levels

/-- The per-category record `analyze_chunk` returns for every category when
the API call fails (line 190 of `src/analyzer.py`). -/
def apiFailureData : CatData := ⟨"Error", "API call failed", []⟩

/-- The whole-chunk result of a failed API call (line 190). -/
def apiFailureResult : AnalysisResult := ANALYSIS_CATEGORIES.map (fun cat => (cat, apiFailureData))

/-- The risk-level update computed at lines 277-278 when both levels are
valid: keep the accumulated level unless the chunk's level has a strictly
larger index. -/
def rmax (a b : String) : String :=
  if (indexOf risk_levels a).getD 0 < (indexOf risk_levels b).getD 0 then b else a

/-- Invariant of the in-progress merged record: the risk level is valid, every
accumulated findings string passed the default-string filter, and the phrase
list is duplicate-free. -/
def GoodAcc (a : MergeAcc) : Prop :=
  a.risk_level ∈ risk_levels ∧
  (∀ f ∈ a.findings, f ≠ "No specific findings." ∧ f ≠ "Not mentioned in document.") ∧
  a.quoted_phrases.Nodup

/-- The record `mergeStep` produces when the looked-up category is present and
both risk levels are valid (the non-raising path of lines 274-289). -/
def stepAcc (acc : MergeAcc) (d : CatData) : MergeAcc :=
  ⟨rmax acc.risk_level d.risk_level, mergeFindings acc.findings d.findings,
   d.quoted_phrases.foldl addPhrase acc.quoted_phrases⟩

/-- An assignment over the configured categories whose `"Payment Terms"` entry
holds 33 non-financial quoted phrases (the metrics counterexample input). -/
def manyPhrasesInput : List (String × CatData) :=
  ANALYSIS_CATEGORIES.map (fun c =>
    (c, if c = "Payment Terms" then ⟨"None", "x", List.replicate 33 ⟨"q", false⟩⟩
        else ⟨"None", "x", []⟩))

/-- Concrete chunk results for instantiating the merge-order properties. -/
def chunkResultA : AnalysisResult := [("Payment Terms", ⟨"Low", "A", [⟨"p", false⟩]⟩)]

/-- A second concrete chunk result (different risk, findings and phrase). -/
def chunkResultB : AnalysisResult := [("Payment Terms", ⟨"High", "B", [⟨"q", true⟩]⟩)]

/-- A third concrete chunk result. -/
def chunkResultC : AnalysisResult := [("Payment Terms", ⟨"Medium", "C", []⟩)]

/-! ## Theorems -/

/-! ### Chunker -/

theorem concatAll_append (l1 l2 : List (List Char)) :
    concatAll (l1 ++ l2) = concatAll l1 ++ concatAll l2 := by
  induction l1 with
  | nil => simp [concatAll]
  | cons c rest ih => simp [concatAll, ih]

theorem chunkLoop_concat (sz : Nat) (ps : List (List Char)) :
    ∀ chunks cur, concatAll (chunkLoop sz ps chunks cur) =
      concatAll chunks ++ cur ++ concatAll (ps.map (fun p => p ++ paraSep)) := by
  induction ps with
  | nil =>
    intro chunks cur
    by_cases h : cur = []
    · simp [chunkLoop, h, concatAll]
    · simp [chunkLoop, h, concatAll_append, concatAll]
  | cons p rest ih =>
    intro chunks cur
    by_cases h : cur.length + p.length < sz
    · simp [chunkLoop, h, ih, concatAll, List.append_assoc]
    · simp [chunkLoop, h, ih, concatAll_append, concatAll, List.append_assoc]

/-- C4: concatenating all chunks returned by `chunk_document` yields exactly
the input's paragraphs, in their original order, each followed by the inserted
`"\n\n"` separator — no paragraph is dropped, duplicated or reordered. -/
theorem chunk_document_coverage (text : List Char) (chunk_size : Nat) :
    concatAll (chunk_document text chunk_size) =
      concatAll ((splitParas text).map (fun p => p ++ paraSep)) := by
  simp [chunk_document, chunkLoop_concat, concatAll]

theorem chunkLoop_bound (sz : Nat) (ps : List (List Char))
    (hps : ∀ p ∈ ps, p.length < sz) :
    ∀ chunks cur, (∀ c ∈ chunks, c.length ≤ sz + 1) → cur.length ≤ sz + 1 →
      ∀ c ∈ chunkLoop sz ps chunks cur, c.length ≤ sz + 1 := by
  induction ps with
  | nil =>
    intro chunks cur hchunks hcur c hc
    simp only [chunkLoop] at hc
    split at hc
    · rcases List.mem_append.1 hc with h | h
      · exact hchunks c h
      · simp only [List.mem_singleton] at h
        subst h
        exact hcur
    · exact hchunks c hc
  | cons p rest ih =>
    intro chunks cur hchunks hcur c hc
    have hp : p.length < sz := hps p (by simp)
    have hrest : ∀ q ∈ rest, q.length < sz := fun q hq => hps q (by simp [hq])
    simp only [chunkLoop] at hc
    split at hc
    · rename_i hlt
      refine ih hrest chunks _ hchunks ?_ c hc
      simp only [List.length_append, paraSep, List.length_cons, List.length_nil]
      omega
    · refine ih hrest (chunks ++ [cur]) _ ?_ ?_ c hc
      · intro q hq
        rcases List.mem_append.1 hq with h | h
        · exact hchunks q h
        · simp only [List.mem_singleton] at h
          subst h
          exact hcur
      · simp only [List.length_append, paraSep, List.length_cons, List.length_nil]
        omega

/-- C5 (amended): when every paragraph of the input is shorter than
`chunk_size`, every chunk returned by `chunk_document` has length at most
`chunk_size + 1` — not `chunk_size`: the guard at line 134 compares
`len(current_chunk) + len(para)` without the two-character `"\n\n"` separator
appended at line 135, so a sealed chunk can exceed the nominal bound by one. -/
theorem chunk_document_soft_bound (text : List Char) (chunk_size : Nat)
    (h : ∀ p ∈ splitParas text, p.length < chunk_size) :
    ∀ c ∈ chunk_document text chunk_size, c.length ≤ chunk_size + 1 := by
  intro c hc
  exact chunkLoop_bound chunk_size (splitParas text) h [] []
    (by simp) (by simp) c hc

/-- C5 counterexample: in `"123456\n\nX"` every paragraph is shorter than the
bound 10, yet the single returned chunk `"123456\n\nX\n\n"` has length 11. -/
theorem chunk_document_bound_counterexample :
    (∀ p ∈ splitParas "123456\n\nX".data, p.length < 10) ∧
    ∃ c ∈ chunk_document "123456\n\nX".data 10, 10 < c.length := by
  decide

theorem chunk_document_soft_bound_witness :
    (∀ p ∈ splitParas "ab\n\ncd".data, p.length < 10) ∧
    ∀ c ∈ chunk_document "ab\n\ncd".data 10, c.length ≤ 10 + 1 :=
  ⟨by decide, chunk_document_soft_bound "ab\n\ncd".data 10 (by decide)⟩

theorem chunkLoop_head (sz : Nat) (ps : List (List Char)) :
    ∀ c0 chunks cur, (chunkLoop sz ps (c0 :: chunks) cur).head? = some c0 := by
  induction ps with
  | nil =>
    intro c0 chunks cur
    simp only [chunkLoop]
    split <;> simp
  | cons p rest ih =>
    intro c0 chunks cur
    simp only [chunkLoop]
    split
    · exact ih c0 chunks _
    · simpa using ih c0 (chunks ++ [cur]) (p ++ paraSep)

/-- C10: when the first paragraph of the input has length at least
`chunk_size`, the guard `len("") + len(para) < chunk_size` of line 134 fails
on the first iteration, so the empty initial buffer is sealed: the first
returned chunk is the empty string. -/
theorem chunk_document_oversized_first_para (text : List Char) (chunk_size : Nat)
    (p : List Char) (ps : List (List Char))
    (hsplit : splitParas text = p :: ps) (hlen : chunk_size ≤ p.length) :
    (chunk_document text chunk_size).head? = some [] := by
  unfold chunk_document
  rw [hsplit]
  simp only [chunkLoop]
  rw [if_neg (by simp; omega)]
  simpa using chunkLoop_head chunk_size ps [] [] (p ++ paraSep)

theorem chunk_document_oversized_first_para_witness :
    (chunk_document "aaa".data 2).head? = some [] :=
  chunk_document_oversized_first_para "aaa".data 2 "aaa".data [] (by decide) (by decide)

/-! ### Financial-term classifier -/

theorem beginsWith_iff (n : List Char) : ∀ l, beginsWith n l = true ↔ ∃ t, l = n ++ t := by
  induction n with
  | nil =>
    intro l
    simp [beginsWith]
  | cons a as ih =>
    intro l
    cases l with
    | nil => simp [beginsWith]
    | cons b bs =>
      simp only [beginsWith, Bool.and_eq_true, beq_iff_eq, ih, List.cons_append,
        List.cons.injEq]
      constructor
      · rintro ⟨rfl, t, rfl⟩
        exact ⟨t, rfl, rfl⟩
      · rintro ⟨t, rfl, rfl⟩
        exact ⟨rfl, t, rfl⟩

theorem containsSub_iff (n : List Char) :
    ∀ h, containsSub n h = true ↔ ∃ pre post, h = pre ++ n ++ post := by
  intro h
  induction h with
  | nil =>
    simp only [containsSub, List.isEmpty_iff]
    constructor
    · rintro rfl
      exact ⟨[], [], rfl⟩
    · rintro ⟨pre, post, hh⟩
      rcases List.append_eq_nil.1 (List.append_eq_nil.1 hh.symm).1 with ⟨-, h2⟩
      exact h2
  | cons c rest ih =>
    simp only [containsSub, Bool.or_eq_true, beginsWith_iff, ih]
    constructor
    · rintro (⟨t, ht⟩ | ⟨pre, post, hh⟩)
      · exact ⟨[], t, by simp [ht]⟩
      · exact ⟨c :: pre, post, by simp [hh]⟩
    · rintro ⟨pre, post, hh⟩
      cases pre with
      | nil =>
        exact Or.inl ⟨post, by simpa using hh⟩
      | cons c' pre' =>
        simp only [List.cons_append, List.cons.injEq] at hh
        exact Or.inr ⟨pre', post, hh.2⟩

/-- C9 (amended): `is_financial_term` returns true exactly when the
per-character lowercasing of the phrase contains one of the eighteen fixed
keywords as a substring — the keyword list contains no currency symbols or
codes, so a phrase containing only a currency amount (e.g. `"€50"`) yields
false; `"Monthly service fee of $99.99"` yields true (via `fee`) and
`"governing law is the state of Delaware"` yields false. -/
theorem is_financial_term_spec :
    (∀ phrase : String, is_financial_term phrase = true ↔
      ∃ kw ∈ financial_keywords, ∃ pre post,
        phrase.data.map Char.toLower = pre ++ kw.data ++ post) ∧
    is_financial_term "Monthly service fee of $99.99" = true ∧
    is_financial_term "governing law is the state of Delaware" = false ∧
    is_financial_term "€50" = false := by
  refine ⟨fun phrase => ?_, by decide, by decide, by decide⟩
  simp only [is_financial_term, List.any_eq_true, containsSub_iff]

/-- C9 counterexample: the claim asserts `is_financial_term` is true for a
phrase containing only a currency symbol, but the code's keyword list has no
currency symbols: `is_financial_term "€50"` is false. -/
theorem is_financial_term_currency_counterexample :
    is_financial_term "€50" = false := by decide

/-! ### Response parser -/

/-- C2: for every input string, `process_analysis_response` returns a mapping
with exactly one entry per configured category — the key list is the category
list itself, which is duplicate-free — and it is a total function: every
branch of the per-category processing yields a record. -/
theorem process_analysis_response_total (content : String) :
    (process_analysis_response content).map Prod.fst = ANALYSIS_CATEGORIES ∧
    ((process_analysis_response content).map Prod.fst).Nodup := by
  have hkeys : (process_analysis_response content).map Prod.fst = ANALYSIS_CATEGORIES := by
    simp [process_analysis_response, Function.comp_def]
  exact ⟨hkeys, hkeys ▸ (by decide : ANALYSIS_CATEGORIES.Nodup)⟩

/-! ### Merger: helper lemmas -/

theorem lookupCat_mem {cat : String} {r : List (String × CatData)} {d : CatData}
    (h : lookupCat cat r = some d) : (cat, d) ∈ r := by
  induction r with
  | nil => simp [lookupCat] at h
  | cons e rest ih =>
    simp only [lookupCat] at h
    split at h
    · rename_i he
      obtain rfl : e.2 = d := by simpa using h
      subst he
      rw [Prod.mk.eta]
      exact List.mem_cons_self e rest
    · exact List.mem_cons_of_mem _ (ih h)

theorem indexOf_eq_none {l : List String} {x : String} (h : x ∉ l) : indexOf l x = none := by
  induction l with
  | nil => rfl
  | cons a rest ih =>
    simp only [indexOf]
    rw [if_neg (fun ha : a = x => h (ha ▸ List.mem_cons_self a rest)),
      ih (fun hx => h (List.mem_cons_of_mem _ hx))]
    rfl

theorem mergeRisk_error {a b : String} (hb : b ∉ risk_levels) : mergeRisk a b = none := by
  unfold mergeRisk
  rw [indexOf_eq_none hb]

theorem mergeRisk_valid :
    ∀ a ∈ risk_levels, ∀ b ∈ risk_levels, mergeRisk a b = some (rmax a b) := by decide

theorem rmax_mem : ∀ a ∈ risk_levels, ∀ b ∈ risk_levels, rmax a b ∈ risk_levels := by decide

theorem rmax_none_left : ∀ a ∈ risk_levels, rmax "None" a = a := by decide

theorem rmax_from_none : ∀ a ∈ risk_levels, ∀ b ∈ risk_levels,
    rmax (rmax "None" a) b = riskMaxSpec a b := by decide

theorem rmax_from_none_comm : ∀ a ∈ risk_levels, ∀ b ∈ risk_levels,
    rmax (rmax "None" a) b = rmax (rmax "None" b) a := by decide

theorem addPhrase_mem_check (acc : List Phrase) (p : Phrase) :
    (acc.any fun q => q.text == p.text && q.is_financial == p.is_financial) = true ↔ p ∈ acc := by
  simp only [List.any_eq_true, Bool.and_eq_true, beq_iff_eq]
  constructor
  · rintro ⟨q, hq, ht, hf⟩
    have : q = p := by
      cases q
      cases p
      simp_all
    exact this ▸ hq
  · intro hp
    exact ⟨p, hp, rfl, rfl⟩

theorem addPhrase_eq (acc : List Phrase) (p : Phrase) :
    addPhrase acc p = if p ∈ acc then acc else acc ++ [p] := by
  unfold addPhrase
  by_cases hp : p ∈ acc
  · rw [if_pos ((addPhrase_mem_check acc p).2 hp), if_pos hp]
  · rw [if_neg (fun hc => hp ((addPhrase_mem_check acc p).1 hc)), if_neg hp]

theorem foldPhrases_mem (l : List Phrase) :
    ∀ acc p, p ∈ l.foldl addPhrase acc ↔ p ∈ acc ∨ p ∈ l := by
  induction l with
  | nil => simp
  | cons q rest ih =>
    intro acc p
    rw [List.foldl_cons, ih, addPhrase_eq]
    by_cases hq : q ∈ acc
    · rw [if_pos hq]
      simp only [List.mem_cons]
      constructor
      · rintro (h | h)
        · exact Or.inl h
        · exact Or.inr (Or.inr h)
      · rintro (h | rfl | h)
        · exact Or.inl h
        · exact Or.inl hq
        · exact Or.inr h
    · rw [if_neg hq]
      simp only [List.mem_append, List.mem_singleton, List.mem_cons]
      tauto

theorem foldPhrases_nodup (l : List Phrase) :
    ∀ acc, acc.Nodup → (l.foldl addPhrase acc).Nodup := by
  induction l with
  | nil => intro acc h; exact h
  | cons q rest ih =>
    intro acc h
    rw [List.foldl_cons]
    refine ih _ ?_
    rw [addPhrase_eq]
    split
    · exact h
    · rename_i hq
      simp [List.nodup_append, h, hq]

theorem foldPhrases_of_nodup (l : List Phrase) :
    ∀ acc, l.Nodup → (∀ p ∈ l, p ∉ acc) → l.foldl addPhrase acc = acc ++ l := by
  induction l with
  | nil => intro acc _ _; simp
  | cons q rest ih =>
    intro acc hnd hdisj
    have hd2 : ∀ p ∈ rest, p ∉ acc ++ [q] := by
      intro p hp hmem
      rcases List.mem_append.1 hmem with h | h
      · exact hdisj p (List.mem_cons_of_mem _ hp) h
      · simp only [List.mem_singleton] at h
        subst h
        exact (List.nodup_cons.1 hnd).1 hp
    rw [List.foldl_cons, addPhrase_eq, if_neg (hdisj q (List.mem_cons_self _ _)),
      ih (acc ++ [q]) (List.nodup_cons.1 hnd).2 hd2]
    simp

theorem foldPhrases_append_perm (l1 l2 : List Phrase) :
    List.Perm ((l1 ++ l2).foldl addPhrase []) ((l2 ++ l1).foldl addPhrase []) := by
  refine (List.perm_ext_iff_of_nodup (foldPhrases_nodup _ _ List.nodup_nil)
    (foldPhrases_nodup _ _ List.nodup_nil)).2 ?_
  intro p
  simp only [foldPhrases_mem, List.not_mem_nil, List.mem_append, false_or]
  tauto

theorem mergeStep_absent {category : String} {acc : MergeAcc} {r : AnalysisResult}
    (h : lookupCat category r = none) : mergeStep category acc r = some acc := by
  simp [mergeStep, h]

theorem mergeStep_present {category : String} {acc : MergeAcc} {r : AnalysisResult} {d : CatData}
    (h : lookupCat category r = some d)
    (ha : acc.risk_level ∈ risk_levels) (hd : d.risk_level ∈ risk_levels) :
    mergeStep category acc r = some (stepAcc acc d) := by
  simp [mergeStep, h, mergeRisk_valid _ ha _ hd, stepAcc]

theorem mergeStep_good {category : String} {acc : MergeAcc} {r : AnalysisResult}
    (hr : ValidResult r) (hg : GoodAcc acc) :
    ∃ acc2, mergeStep category acc r = some acc2 ∧ GoodAcc acc2 := by
  cases hlk : lookupCat category r with
  | none => exact ⟨acc, mergeStep_absent hlk, hg⟩
  | some d =>
    have hd : d.risk_level ∈ risk_levels := hr (category, d) (lookupCat_mem hlk)
    refine ⟨stepAcc acc d, mergeStep_present hlk hg.1 hd, ?_, ?_, ?_⟩
    · exact rmax_mem _ hg.1 _ hd
    · intro f hf
      simp only [stepAcc] at hf
      unfold mergeFindings at hf
      split at hf
      · rcases List.mem_append.1 hf with h | h
        · exact hg.2.1 f h
        · rename_i hcond
          simp only [List.mem_singleton] at h
          subst h
          exact hcond
      · exact hg.2.1 f hf
    · exact foldPhrases_nodup _ _ hg.2.2

theorem initialAcc_good : GoodAcc initialAcc :=
  ⟨by decide, by simp [initialAcc], by simp [initialAcc]⟩

theorem mergeCategoryAcc_good {category : String} :
    ∀ (results : List AnalysisResult) (acc : MergeAcc),
      (∀ r ∈ results, ValidResult r) → GoodAcc acc →
      ∃ a2, results.foldlM (mergeStep category) acc = some a2 ∧ GoodAcc a2 := by
  intro results
  induction results with
  | nil => intro acc _ hg; exact ⟨acc, rfl, hg⟩
  | cons r rest ih =>
    intro acc hv hg
    obtain ⟨a1, h1, hg1⟩ := @mergeStep_good category acc r (hv r (by simp)) hg
    obtain ⟨a2, h2, hg2⟩ := ih a1 (fun q hq => hv q (by simp [hq])) hg1
    refine ⟨a2, ?_, hg2⟩
    rw [List.foldlM_cons, h1]
    exact h2

theorem mapM_pairs_some (g : String → Option CatData) :
    ∀ cats : List String, (∀ c ∈ cats, (g c).isSome) →
      ∃ out, cats.mapM (fun c => (g c).map (fun d => (c, d))) = some out := by
  intro cats
  induction cats with
  | nil => intro _; exact ⟨[], rfl⟩
  | cons c0 rest ih =>
    intro hall
    obtain ⟨d0, hd0⟩ := Option.isSome_iff_exists.1 (hall c0 (by simp))
    obtain ⟨out, hout⟩ := ih (fun c hc => hall c (by simp [hc]))
    refine ⟨(c0, d0) :: out, ?_⟩
    rw [List.mapM_cons, hd0, hout]
    rfl

theorem mapM_pairs_lookup (g : String → Option CatData) :
    ∀ (cats : List String) (out : List (String × CatData)),
      cats.mapM (fun c => (g c).map (fun d => (c, d))) = some out →
      (∀ cat ∈ cats, lookupCat cat out = g cat) ∧ (∀ e ∈ out, g e.1 = some e.2) := by
  intro cats
  induction cats with
  | nil =>
    intro out h
    rw [List.mapM_nil] at h
    obtain rfl : out = [] := by simpa using h.symm
    exact ⟨by simp, by simp⟩
  | cons c0 rest ih =>
    intro out h
    rw [List.mapM_cons] at h
    cases hd0 : g c0 with
    | none =>
      rw [hd0] at h
      simp only [Option.map_none', Option.bind_eq_bind', Option.none_bind'] at h
      exact absurd h (by simp)
    | some d0 =>
      rw [hd0] at h
      cases hrest : rest.mapM (fun c => (g c).map (fun d => (c, d))) with
      | none =>
        rw [hrest] at h
        simp only [Option.map_some', Option.bind_eq_bind', Option.some_bind',
          Option.none_bind'] at h
        exact absurd h (by simp)
      | some out' =>
        rw [hrest] at h
        simp only [Option.map_some', Option.bind_eq_bind', Option.some_bind',
          Option.pure_def] at h
        obtain rfl : out = (c0, d0) :: out' := by simpa using h.symm
        obtain ⟨ih1, ih2⟩ := ih out' hrest
        constructor
        · intro cat hcat
          by_cases hc : c0 = cat
          · subst hc
            simp [lookupCat, hd0]
          · simp only [lookupCat]
            rw [if_neg hc]
            refine ih1 cat ?_
            rcases List.mem_cons.1 hcat with rfl | hc'
            · exact absurd rfl hc
            · exact hc'
        · intro e he
          rcases List.mem_cons.1 he with rfl | he'
          · simpa using hd0
          · exact ih2 e he'

theorem mapM_pairs_none (g : String → Option CatData) :
    ∀ cats : List String, ∀ c ∈ cats, g c = none →
      cats.mapM (fun c => (g c).map (fun d => (c, d))) = none := by
  intro cats
  induction cats with
  | nil => intro c hc; simp at hc
  | cons c0 rest ih =>
    intro c hc hnone
    rw [List.mapM_cons]
    rcases List.mem_cons.1 hc with rfl | hc'
    · rw [hnone]
      simp only [Option.map_none', Option.bind_eq_bind', Option.none_bind']
    · cases hg0 : g c0 with
      | none =>
        simp only [Option.map_none', Option.bind_eq_bind', Option.none_bind']
      | some d0 =>
        rw [ih c hc' hnone]
        simp only [Option.map_some', Option.bind_eq_bind', Option.some_bind',
          Option.none_bind']

theorem mapM_pairs_congr (g1 g2 : String → Option CatData) :
    ∀ cats : List String, (∀ c ∈ cats, g1 c = g2 c) →
      cats.mapM (fun c => (g1 c).map (fun d => (c, d))) =
      cats.mapM (fun c => (g2 c).map (fun d => (c, d))) := by
  intro cats
  induction cats with
  | nil => intro _; rfl
  | cons c0 rest ih =>
    intro h
    rw [List.mapM_cons, List.mapM_cons, h c0 (by simp), ih (fun c hc => h c (by simp [hc]))]

theorem merge_some {results : List AnalysisResult} (hv : ∀ r ∈ results, ValidResult r) :
    ∃ m, merge_analysis_results results = some m ∧
      ∀ cat ∈ ANALYSIS_CATEGORIES, lookupCat cat m.categories = mergeCategory cat results := by
  have hg : ∀ c ∈ ANALYSIS_CATEGORIES, (mergeCategory c results).isSome := by
    intro c _
    obtain ⟨a2, h2, -⟩ :=
      @mergeCategoryAcc_good c results initialAcc hv initialAcc_good
    simp [mergeCategory, mergeCategoryAcc, h2]
  obtain ⟨out, hout⟩ := mapM_pairs_some (fun c => mergeCategory c results) ANALYSIS_CATEGORIES hg
  refine ⟨⟨out, calculate_metrics out⟩, ?_, (mapM_pairs_lookup _ _ _ hout).1⟩
  unfold merge_analysis_results
  rw [hout]

/-! ### Merger: the claims -/

theorem mergeStep_error_lookup {category : String} {r : AnalysisResult} {d : CatData}
    (h : lookupCat category r = some d) (hd : d.risk_level ∉ risk_levels) :
    ∀ acc, mergeStep category acc r = none := by
  intro acc
  simp [mergeStep, h, mergeRisk_error hd]

theorem foldlM_error {category : String} :
    ∀ (results : List AnalysisResult) (acc : MergeAcc) (r : AnalysisResult), r ∈ results →
      (∀ a, mergeStep category a r = none) →
      results.foldlM (mergeStep category) acc = none := by
  intro results
  induction results with
  | nil => intro acc r hr; simp at hr
  | cons r0 rest ih =>
    intro acc r hr hfail
    rw [List.foldlM_cons]
    rcases List.mem_cons.1 hr with rfl | hr'
    · rw [hfail acc]
      rfl
    · cases h0 : mergeStep category acc r0 with
      | none => rfl
      | some a1 =>
        simp only [Option.bind_eq_bind', Option.some_bind']
        exact ih a1 r hr' hfail

/-- C1 is false of the code (a code bug): when some chunk result carries the
`'Error'` risk level that `analyze_chunk` itself assigns on API failure,
`merge_analysis_results` does not degrade — `risk_levels.index('Error')` at
line 277 raises `ValueError` (modelled by `none`), both when the failed chunk
is the only one and when a healthy chunk result is also present. -/
theorem merge_error_chunk_raises :
    merge_analysis_results [apiFailureResult] = none ∧
    merge_analysis_results [[("Payment Terms", ⟨"High", "F", []⟩)], apiFailureResult] = none :=
  ⟨by decide, by decide⟩

/-- C3: for chunk results with valid risk levels, the merged risk level of a
category present in both is their maximum under None < Low < Medium < High. -/
theorem merge_risk_is_max (r1 r2 : AnalysisResult)
    (hv1 : ValidResult r1) (hv2 : ValidResult r2)
    (cat : String) (hcat : cat ∈ ANALYSIS_CATEGORIES)
    (d1 d2 : CatData) (h1 : lookupCat cat r1 = some d1) (h2 : lookupCat cat r2 = some d2) :
    ∃ m dm, merge_analysis_results [r1, r2] = some m ∧
      lookupCat cat m.categories = some dm ∧
      dm.risk_level = riskMaxSpec d1.risk_level d2.risk_level := by
  have hv : ∀ r ∈ [r1, r2], ValidResult r := by
    intro r hr
    rcases List.mem_cons.1 hr with rfl | hr'
    · exact hv1
    · simp only [List.mem_singleton] at hr'
      subst hr'
      exact hv2
  obtain ⟨m, hm, hlk⟩ := merge_some hv
  have hd1 : d1.risk_level ∈ risk_levels := hv1 (cat, d1) (lookupCat_mem h1)
  have hd2 : d2.risk_level ∈ risk_levels := hv2 (cat, d2) (lookupCat_mem h2)
  have hstep1 : mergeStep cat initialAcc r1 = some (stepAcc initialAcc d1) :=
    mergeStep_present h1 (by decide) hd1
  have ha1 : (stepAcc initialAcc d1).risk_level ∈ risk_levels :=
    rmax_mem _ (by decide) _ hd1
  have hstep2 : mergeStep cat (stepAcc initialAcc d1) r2 =
      some (stepAcc (stepAcc initialAcc d1) d2) := mergeStep_present h2 ha1 hd2
  have hfold : mergeCategoryAcc cat [r1, r2] = some (stepAcc (stepAcc initialAcc d1) d2) := by
    unfold mergeCategoryAcc
    rw [List.foldlM_cons, hstep1]
    simp only [Option.bind_eq_bind', Option.some_bind']
    rw [List.foldlM_cons, hstep2]
    rfl
  refine ⟨m, finalizeAcc (stepAcc (stepAcc initialAcc d1) d2), hm, ?_, ?_⟩
  · rw [hlk cat hcat]
    unfold mergeCategory
    rw [hfold]
    rfl
  · show rmax (rmax "None" d1.risk_level) d2.risk_level = riskMaxSpec d1.risk_level d2.risk_level
    exact rmax_from_none _ hd1 _ hd2

theorem merge_risk_is_max_witness :
    ∃ m dm, merge_analysis_results [[("Payment Terms", ⟨"Low", "A", []⟩)],
        [("Payment Terms", ⟨"High", "B", []⟩)]] = some m ∧
      lookupCat "Payment Terms" m.categories = some dm ∧
      dm.risk_level = riskMaxSpec "Low" "High" :=
  merge_risk_is_max [("Payment Terms", ⟨"Low", "A", []⟩)] [("Payment Terms", ⟨"High", "B", []⟩)]
    (by decide) (by decide) "Payment Terms" (by decide)
    ⟨"Low", "A", []⟩ ⟨"High", "B", []⟩ (by decide) (by decide)

theorem joinFindings_single (f : String) :
    joinFindings (mergeFindings [] f) = normalizeFindings f := by
  unfold mergeFindings normalizeFindings
  by_cases h1 : f = "No specific findings."
  · subst h1
    rfl
  · by_cases h2 : f = "Not mentioned in document."
    · subst h2
      simp [joinFindings]
    · rw [if_pos ⟨h1, h2⟩, if_neg h2]
      simp [joinFindings, joinLines]

/-- C7 (amended): merging a one-element sequence `[r]` of a valid result
returns `r`'s entry for every category of `r`, up to the default-findings
normalization AND up to de-duplication of the quoted phrases: exact equality
(modulo the findings normalization alone, as the claim states) holds only when
`r`'s per-category phrase lists are duplicate-free, since lines 285-289
de-duplicate by the `(text, is_financial)` pair. -/
theorem merge_singleton (r : AnalysisResult) (hv : ValidResult r)
    (hnd : ∀ e ∈ r, e.2.quoted_phrases.Nodup) :
    ∃ m, merge_analysis_results [r] = some m ∧
      ∀ cat ∈ ANALYSIS_CATEGORIES, ∀ d, lookupCat cat r = some d →
        lookupCat cat m.categories =
          some ⟨d.risk_level, normalizeFindings d.findings, d.quoted_phrases⟩ := by
  have hv' : ∀ q ∈ [r], ValidResult q := by
    intro q hq
    simp only [List.mem_singleton] at hq
    subst hq
    exact hv
  obtain ⟨m, hm, hlk⟩ := merge_some hv'
  refine ⟨m, hm, ?_⟩
  intro cat hcat d hd
  have hdr : d.risk_level ∈ risk_levels := hv (cat, d) (lookupCat_mem hd)
  have hstep : mergeStep cat initialAcc r = some (stepAcc initialAcc d) :=
    mergeStep_present hd (by decide) hdr
  have hfold : mergeCategoryAcc cat [r] = some (stepAcc initialAcc d) := by
    unfold mergeCategoryAcc
    rw [List.foldlM_cons, hstep]
    rfl
  rw [hlk cat hcat]
  unfold mergeCategory
  rw [hfold]
  have hph : d.quoted_phrases.foldl addPhrase [] = d.quoted_phrases := by
    rw [foldPhrases_of_nodup _ _ (hnd (cat, d) (lookupCat_mem hd)) (by simp)]
    simp
  show some (CatData.mk (rmax "None" d.risk_level)
      (joinFindings (mergeFindings [] d.findings))
      (d.quoted_phrases.foldl addPhrase [])) = _
  rw [rmax_none_left _ hdr, joinFindings_single, hph]

theorem merge_singleton_witness :
    ∃ m, merge_analysis_results
        [[("Payment Terms", ⟨"High", "Fee applies", [⟨"fee", true⟩]⟩)]] = some m ∧
      ∀ cat ∈ ANALYSIS_CATEGORIES, ∀ d,
        lookupCat cat [("Payment Terms",
          (⟨"High", "Fee applies", [⟨"fee", true⟩]⟩ : CatData))] = some d →
        lookupCat cat m.categories =
          some ⟨d.risk_level, normalizeFindings d.findings, d.quoted_phrases⟩ :=
  merge_singleton _ (by decide) (by decide)

/-- C7 counterexample: for the valid single-chunk result whose `"Payment
Terms"` entry holds the quoted phrase `("a", false)` twice, merging the
one-element sequence de-duplicates the phrase list — the merged entry keeps
one copy — while its risk level and findings are untouched (the findings
normalization changes nothing here), so `merge([r])` is not `r` up to
default-findings normalization alone. -/
theorem merge_singleton_counterexample :
    (merge_analysis_results
        [[("Payment Terms", ⟨"Low", "F", [⟨"a", false⟩, ⟨"a", false⟩]⟩)]]).bind
      (fun m => lookupCat "Payment Terms" m.categories) =
      some ⟨"Low", "F", [⟨"a", false⟩]⟩ ∧
    normalizeFindings "F" = "F" ∧
    ([⟨"a", false⟩] : List Phrase) ≠ [⟨"a", false⟩, ⟨"a", false⟩] :=
  ⟨by decide, by decide, by decide⟩

/-! ### Metrics -/

theorem ratio_bounds (a b : Nat) (hab : a ≤ b) (hb : 0 < b) :
    0 ≤ (a : ℚ) / (b : ℚ) * 100 ∧ (a : ℚ) / (b : ℚ) * 100 ≤ 100 := by
  have hb' : (0 : ℚ) < b := by exact_mod_cast hb
  refine ⟨by positivity, ?_⟩
  have h1 : (a : ℚ) / b ≤ 1 := by
    rw [div_le_one hb']
    exact_mod_cast hab
  have h2 := mul_le_mul_of_nonneg_right h1 (by norm_num : (0 : ℚ) ≤ 100)
  simpa using h2

/-- C6 (amended): for any assignment over the configured categories,
`complexity_score` and `financial_impact` lie in [0, 100] and
`unusual_terms_ratio` is nonnegative — but `unusual_terms_ratio` is NOT
bounded by 100: its denominator `max(1, len(analysis_results))` counts
categories while its numerator counts phrases, which a category can hold more
of than there are categories. -/
theorem calculate_metrics_bounds (analysis_results : List (String × CatData))
    (hkeys : analysis_results.map Prod.fst = ANALYSIS_CATEGORIES) :
    (0 ≤ (calculate_metrics analysis_results).complexity_score ∧
      (calculate_metrics analysis_results).complexity_score ≤ 100) ∧
    (0 ≤ (calculate_metrics analysis_results).financial_impact ∧
      (calculate_metrics analysis_results).financial_impact ≤ 100) ∧
    0 ≤ (calculate_metrics analysis_results).unusual_terms_ratio := by
  have hlen : analysis_results.length = ANALYSIS_CATEGORIES.length := by
    rw [← hkeys, List.length_map]
  unfold calculate_metrics
  dsimp only
  refine ⟨?_, ?_, by positivity⟩
  · exact ratio_bounds _ _ (hlen ▸ List.length_filter_le _ _) (by decide)
  · exact ratio_bounds _ _ (le_trans (Nat.le_add_right _ _) (le_max_right 1 _))
      (Nat.lt_of_lt_of_le Nat.zero_lt_one (le_max_left 1 _))

theorem calculate_metrics_bounds_witness :
    (0 ≤ (calculate_metrics manyPhrasesInput).complexity_score ∧
      (calculate_metrics manyPhrasesInput).complexity_score ≤ 100) ∧
    (0 ≤ (calculate_metrics manyPhrasesInput).financial_impact ∧
      (calculate_metrics manyPhrasesInput).financial_impact ≤ 100) ∧
    0 ≤ (calculate_metrics manyPhrasesInput).unusual_terms_ratio :=
  calculate_metrics_bounds manyPhrasesInput (by decide)

/-- C6 counterexample: in the assignment over the configured categories whose
`"Payment Terms"` entry holds 33 non-financial quoted phrases,
`unusual_terms_ratio = 33 / 32 × 100 > 100`: the third metric escapes the
claimed [0, 100] interval. -/
theorem calculate_metrics_ratio_counterexample :
    manyPhrasesInput.map Prod.fst = ANALYSIS_CATEGORIES ∧
    100 < (calculate_metrics manyPhrasesInput).unusual_terms_ratio := by
  refine ⟨by decide, ?_⟩
  have hcounts : (manyPhrasesInput.map (fun r =>
      (r.2.quoted_phrases.filter (fun q => !q.is_financial)).length)).sum = 33 := by decide
  have hlen : manyPhrasesInput.length = 32 := by decide
  unfold calculate_metrics
  dsimp only
  rw [hcounts, hlen]
  have hmax : (max 1 32 : Nat) = 32 := by decide
  rw [hmax]
  norm_num

/-! ### Merge order: helper lemmas -/

theorem joinLines_cons (s : String) (rest : List String) (h : rest ≠ []) :
    joinLines (s :: rest) = s ++ "\n" ++ joinLines rest := by
  cases rest with
  | nil => exact absurd rfl h
  | cons t rest' => rfl

theorem joinLines_append (l1 l2 : List String) (h1 : l1 ≠ []) (h2 : l2 ≠ []) :
    joinLines (l1 ++ l2) = joinLines l1 ++ "\n" ++ joinLines l2 := by
  induction l1 with
  | nil => exact absurd rfl h1
  | cons s t ih =>
    by_cases ht : t = []
    · subst ht
      rw [List.singleton_append, joinLines_cons s l2 h2]
      rfl
    · rw [List.cons_append, joinLines_cons s (t ++ l2) (by simp [ht]),
        joinLines_cons s t ht, ih ht]
      simp only [String.append_assoc]

theorem joinLines_ne_defaults (parts : List String) (hne : parts ≠ [])
    (hall : ∀ f ∈ parts, f ≠ "No specific findings." ∧ f ≠ "Not mentioned in document.") :
    joinLines parts ≠ "No specific findings." ∧
    joinLines parts ≠ "Not mentioned in document." := by
  match parts, hne with
  | [s], _ => exact hall s (by simp)
  | s :: t :: rest, _ =>
    have hnl : '\n' ∈ (joinLines (s :: t :: rest)).data := by
      rw [joinLines_cons s (t :: rest) (by simp)]
      simp only [String.data_append, List.mem_append]
      left
      right
      decide
    constructor <;> intro heq <;> rw [heq] at hnl <;> revert hnl <;> decide

theorem mergeFindings_join (parts : List String)
    (hall : ∀ f ∈ parts, f ≠ "No specific findings." ∧ f ≠ "Not mentioned in document.") :
    mergeFindings [] (joinFindings parts) = if parts = [] then [] else [joinLines parts] := by
  by_cases hne : parts = []
  · subst hne
    simp [mergeFindings, joinFindings]
  · rw [if_neg hne]
    unfold joinFindings
    rw [if_neg hne]
    unfold mergeFindings
    rw [if_pos (joinLines_ne_defaults parts hne hall)]
    simp

theorem finalize_restep (a : MergeAcc) (hg : GoodAcc a) :
    finalizeAcc (stepAcc initialAcc (finalizeAcc a)) = finalizeAcc a := by
  show CatData.mk (rmax "None" a.risk_level)
      (joinFindings (mergeFindings [] (joinFindings a.findings)))
      (a.quoted_phrases.foldl addPhrase []) = _
  rw [rmax_none_left _ hg.1, mergeFindings_join _ hg.2.1,
    foldPhrases_of_nodup _ _ hg.2.2 (by simp), List.nil_append]
  by_cases hne : a.findings = []
  · rw [if_pos hne, ← hne]
    rfl
  · rw [if_neg hne]
    have hfnd : joinFindings [joinLines a.findings] = joinFindings a.findings := by
      unfold joinFindings
      rw [if_neg (by simp : ([joinLines a.findings] : List String) ≠ []), if_neg hne]
      simp [joinLines]
    rw [hfnd]
    rfl

theorem finalize_restep_step (a : MergeAcc) (hg : GoodAcc a) (d : CatData) :
    finalizeAcc (stepAcc (stepAcc initialAcc (finalizeAcc a)) d) =
    finalizeAcc (stepAcc a d) := by
  show CatData.mk (rmax (rmax "None" a.risk_level) d.risk_level)
      (joinFindings (mergeFindings (mergeFindings [] (joinFindings a.findings)) d.findings))
      (d.quoted_phrases.foldl addPhrase (a.quoted_phrases.foldl addPhrase [])) = _
  rw [rmax_none_left _ hg.1, mergeFindings_join _ hg.2.1,
    foldPhrases_of_nodup _ _ hg.2.2 (by simp), List.nil_append]
  by_cases hne : a.findings = []
  · rw [if_pos hne, ← hne]
    rfl
  · rw [if_neg hne]
    have hfnd : joinFindings (mergeFindings [joinLines a.findings] d.findings) =
        joinFindings (mergeFindings a.findings d.findings) := by
      unfold mergeFindings
      by_cases hdf : d.findings ≠ "No specific findings." ∧
          d.findings ≠ "Not mentioned in document."
      · rw [if_pos hdf, if_pos hdf]
        unfold joinFindings
        rw [if_neg (by simp), if_neg (by simp)]
        rw [joinLines_append [joinLines a.findings] [d.findings] (by simp) (by simp),
          joinLines_append a.findings [d.findings] hne (by simp)]
        simp [joinLines]
      · rw [if_neg hdf, if_neg hdf]
        unfold joinFindings
        rw [if_neg (by simp), if_neg hne]
        simp [joinLines]
    rw [hfnd]
    rfl

theorem mergeCategoryAcc_pair (cat : String) (x y : AnalysisResult) (b : MergeAcc)
    (hx : mergeStep cat initialAcc x = some b) :
    mergeCategoryAcc cat [x, y] = mergeStep cat b y := by
  unfold mergeCategoryAcc
  rw [List.foldlM_cons, hx]
  simp only [Option.bind_eq_bind', Option.some_bind']
  rw [List.foldlM_cons]
  cases mergeStep cat b y <;> rfl

theorem mergeCategoryAcc_triple (cat : String) (r1 r2 r3 : AnalysisResult) (a12 : MergeAcc)
    (h12 : mergeCategoryAcc cat [r1, r2] = some a12) :
    mergeCategoryAcc cat [r1, r2, r3] = mergeStep cat a12 r3 := by
  unfold mergeCategoryAcc at h12 ⊢
  rw [show ([r1, r2, r3] : List AnalysisResult) = [r1, r2] ++ [r3] from rfl,
    List.foldlM_append, h12]
  simp only [Option.bind_eq_bind', Option.some_bind']
  rw [List.foldlM_cons]
  cases mergeStep cat a12 r3 <;> rfl

theorem mergeFindings_two_perm (f1 f2 : String) :
    List.Perm (mergeFindings (mergeFindings [] f1) f2)
      (mergeFindings (mergeFindings [] f2) f1) := by
  unfold mergeFindings
  by_cases h1 : f1 ≠ "No specific findings." ∧ f1 ≠ "Not mentioned in document." <;>
    by_cases h2 : f2 ≠ "No specific findings." ∧ f2 ≠ "Not mentioned in document." <;>
    simp [h1, h2]
  exact List.Perm.swap f2 f1 []

theorem merge_assoc_category (cat : String) (r1 r2 r3 : AnalysisResult)
    (hv3 : ValidResult r3)
    (a12 : MergeAcc) (ha12 : mergeCategoryAcc cat [r1, r2] = some a12) (hg12 : GoodAcc a12)
    (m12cats : List (String × CatData))
    (hlk : lookupCat cat m12cats = some (finalizeAcc a12)) :
    mergeCategory cat [m12cats, r3] = mergeCategory cat [r1, r2, r3] := by
  have hfr : (finalizeAcc a12).risk_level ∈ risk_levels := hg12.1
  have hstep1 : mergeStep cat initialAcc m12cats =
      some (stepAcc initialAcc (finalizeAcc a12)) :=
    mergeStep_present hlk (by decide) hfr
  have hL := mergeCategoryAcc_pair cat m12cats r3 _ hstep1
  have hR := mergeCategoryAcc_triple cat r1 r2 r3 a12 ha12
  unfold mergeCategory
  rw [hL, hR]
  cases hlk3 : lookupCat cat r3 with
  | none =>
    rw [mergeStep_absent hlk3, mergeStep_absent hlk3]
    simp [finalize_restep a12 hg12]
  | some d3 =>
    have hd3 : d3.risk_level ∈ risk_levels := hv3 (cat, d3) (lookupCat_mem hlk3)
    have hsr : (stepAcc initialAcc (finalizeAcc a12)).risk_level ∈ risk_levels :=
      rmax_mem _ (by decide) _ hfr
    rw [mergeStep_present hlk3 hsr hd3, mergeStep_present hlk3 hg12.1 hd3]
    simp [finalize_restep_step a12 hg12 d3]

/-- C8 (amended): for valid chunk results, merging is associative exactly
(feeding a merged result back with a third chunk equals merging all three at
once), but commutative only up to ordering: swapping the two inputs preserves
every category's risk level and permutes its de-duplicated quoted-phrase list
and the segments whose newline-join is its findings string — the findings
string itself is concatenated in input order (line 292), so
`merge([r1, r2]) = merge([r2, r1])` fails as stated. -/
theorem merge_comm_assoc (r1 r2 r3 : AnalysisResult)
    (hv1 : ValidResult r1) (hv2 : ValidResult r2) (hv3 : ValidResult r3) :
    (∃ m12 m21, merge_analysis_results [r1, r2] = some m12 ∧
       merge_analysis_results [r2, r1] = some m21 ∧
       ∀ cat ∈ ANALYSIS_CATEGORIES, ∃ d12 d21,
         lookupCat cat m12.categories = some d12 ∧
         lookupCat cat m21.categories = some d21 ∧
         d12.risk_level = d21.risk_level ∧
         List.Perm d12.quoted_phrases d21.quoted_phrases ∧
         ∃ ps12 ps21, List.Perm ps12 ps21 ∧
           d12.findings = joinFindings ps12 ∧ d21.findings = joinFindings ps21) ∧
    (∀ m12, merge_analysis_results [r1, r2] = some m12 →
       merge_analysis_results [m12.categories, r3] = merge_analysis_results [r1, r2, r3]) := by
  have hv12 : ∀ r ∈ [r1, r2], ValidResult r := by
    intro r hr
    rcases List.mem_cons.1 hr with rfl | hr'
    · exact hv1
    · simp only [List.mem_singleton] at hr'
      subst hr'
      exact hv2
  have hv21 : ∀ r ∈ [r2, r1], ValidResult r := by
    intro r hr
    rcases List.mem_cons.1 hr with rfl | hr'
    · exact hv2
    · simp only [List.mem_singleton] at hr'
      subst hr'
      exact hv1
  constructor
  · obtain ⟨m12, hm12, hlk12⟩ := merge_some hv12
    obtain ⟨m21, hm21, hlk21⟩ := merge_some hv21
    refine ⟨m12, m21, hm12, hm21, ?_⟩
    intro cat hcat
    cases hx : lookupCat cat r1 with
    | none =>
      cases hy : lookupCat cat r2 with
      | none =>
        have e12 : mergeCategoryAcc cat [r1, r2] = some initialAcc := by
          rw [mergeCategoryAcc_pair cat r1 r2 initialAcc (mergeStep_absent hx),
            mergeStep_absent hy]
        have e21 : mergeCategoryAcc cat [r2, r1] = some initialAcc := by
          rw [mergeCategoryAcc_pair cat r2 r1 initialAcc (mergeStep_absent hy),
            mergeStep_absent hx]
        refine ⟨finalizeAcc initialAcc, finalizeAcc initialAcc, ?_, ?_, rfl,
          List.Perm.refl _, initialAcc.findings, initialAcc.findings,
          List.Perm.refl _, rfl, rfl⟩
        · rw [hlk12 cat hcat]
          unfold mergeCategory
          rw [e12]
          rfl
        · rw [hlk21 cat hcat]
          unfold mergeCategory
          rw [e21]
          rfl
      | some d2 =>
        have hd2 : d2.risk_level ∈ risk_levels := hv2 (cat, d2) (lookupCat_mem hy)
        have e12 : mergeCategoryAcc cat [r1, r2] = some (stepAcc initialAcc d2) := by
          rw [mergeCategoryAcc_pair cat r1 r2 initialAcc (mergeStep_absent hx),
            mergeStep_present hy (by decide) hd2]
        have e21 : mergeCategoryAcc cat [r2, r1] = some (stepAcc initialAcc d2) := by
          rw [mergeCategoryAcc_pair cat r2 r1 (stepAcc initialAcc d2)
              (mergeStep_present hy (by decide) hd2), mergeStep_absent hx]
        refine ⟨finalizeAcc (stepAcc initialAcc d2), finalizeAcc (stepAcc initialAcc d2),
          ?_, ?_, rfl, List.Perm.refl _, (stepAcc initialAcc d2).findings,
          (stepAcc initialAcc d2).findings, List.Perm.refl _, rfl, rfl⟩
        · rw [hlk12 cat hcat]
          unfold mergeCategory
          rw [e12]
          rfl
        · rw [hlk21 cat hcat]
          unfold mergeCategory
          rw [e21]
          rfl
    | some d1 =>
      have hd1 : d1.risk_level ∈ risk_levels := hv1 (cat, d1) (lookupCat_mem hx)
      cases hy : lookupCat cat r2 with
      | none =>
        have e12 : mergeCategoryAcc cat [r1, r2] = some (stepAcc initialAcc d1) := by
          rw [mergeCategoryAcc_pair cat r1 r2 (stepAcc initialAcc d1)
              (mergeStep_present hx (by decide) hd1), mergeStep_absent hy]
        have e21 : mergeCategoryAcc cat [r2, r1] = some (stepAcc initialAcc d1) := by
          rw [mergeCategoryAcc_pair cat r2 r1 initialAcc (mergeStep_absent hy),
            mergeStep_present hx (by decide) hd1]
        refine ⟨finalizeAcc (stepAcc initialAcc d1), finalizeAcc (stepAcc initialAcc d1),
          ?_, ?_, rfl, List.Perm.refl _, (stepAcc initialAcc d1).findings,
          (stepAcc initialAcc d1).findings, List.Perm.refl _, rfl, rfl⟩
        · rw [hlk12 cat hcat]
          unfold mergeCategory
          rw [e12]
          rfl
        · rw [hlk21 cat hcat]
          unfold mergeCategory
          rw [e21]
          rfl
      | some d2 =>
        have hd2 : d2.risk_level ∈ risk_levels := hv2 (cat, d2) (lookupCat_mem hy)
        have e12 : mergeCategoryAcc cat [r1, r2] =
            some (stepAcc (stepAcc initialAcc d1) d2) := by
          rw [mergeCategoryAcc_pair cat r1 r2 (stepAcc initialAcc d1)
              (mergeStep_present hx (by decide) hd1),
            mergeStep_present hy (rmax_mem _ (by decide) _ hd1) hd2]
        have e21 : mergeCategoryAcc cat [r2, r1] =
            some (stepAcc (stepAcc initialAcc d2) d1) := by
          rw [mergeCategoryAcc_pair cat r2 r1 (stepAcc initialAcc d2)
              (mergeStep_present hy (by decide) hd2),
            mergeStep_present hx (rmax_mem _ (by decide) _ hd2) hd1]
        refine ⟨finalizeAcc (stepAcc (stepAcc initialAcc d1) d2),
          finalizeAcc (stepAcc (stepAcc initialAcc d2) d1), ?_, ?_, ?_, ?_,
          mergeFindings (mergeFindings [] d1.findings) d2.findings,
          mergeFindings (mergeFindings [] d2.findings) d1.findings,
          mergeFindings_two_perm d1.findings d2.findings, rfl, rfl⟩
        · rw [hlk12 cat hcat]
          unfold mergeCategory
          rw [e12]
          rfl
        · rw [hlk21 cat hcat]
          unfold mergeCategory
          rw [e21]
          rfl
        · show rmax (rmax "None" d1.risk_level) d2.risk_level =
            rmax (rmax "None" d2.risk_level) d1.risk_level
          exact rmax_from_none_comm _ hd1 _ hd2
        · show List.Perm
            (d2.quoted_phrases.foldl addPhrase
              (d1.quoted_phrases.foldl addPhrase initialAcc.quoted_phrases))
            (d1.quoted_phrases.foldl addPhrase
              (d2.quoted_phrases.foldl addPhrase initialAcc.quoted_phrases))
          have hp := foldPhrases_append_perm d1.quoted_phrases d2.quoted_phrases
          rw [List.foldl_append, List.foldl_append] at hp
          exact hp
  · intro m12 hm12
    unfold merge_analysis_results at hm12
    cases hmap : ANALYSIS_CATEGORIES.mapM (fun category =>
        (mergeCategory category [r1, r2]).map (fun d => (category, d))) with
    | none =>
      rw [hmap] at hm12
      exact absurd hm12 (by simp)
    | some cats =>
      rw [hmap] at hm12
      have hm : MergedResult.mk cats (calculate_metrics cats) = m12 := by
        simpa using hm12
      obtain ⟨hlk12', hent⟩ := mapM_pairs_lookup _ _ _ hmap
      subst hm
      show merge_analysis_results [cats, r3] = merge_analysis_results [r1, r2, r3]
      have hcateq : ∀ cat ∈ ANALYSIS_CATEGORIES,
          mergeCategory cat [cats, r3] = mergeCategory cat [r1, r2, r3] := by
        intro cat hcat
        obtain ⟨a12, ha12, hg12⟩ :=
          @mergeCategoryAcc_good cat [r1, r2] initialAcc hv12 initialAcc_good
        refine merge_assoc_category cat r1 r2 r3 hv3 a12 ha12 hg12 cats ?_
        rw [hlk12' cat hcat]
        unfold mergeCategory mergeCategoryAcc
        rw [ha12]
        rfl
      unfold merge_analysis_results
      rw [mapM_pairs_congr _ _ ANALYSIS_CATEGORIES hcateq]

theorem merge_comm_assoc_witness :
    (∃ m12 m21, merge_analysis_results [chunkResultA, chunkResultB] = some m12 ∧
       merge_analysis_results [chunkResultB, chunkResultA] = some m21 ∧
       ∀ cat ∈ ANALYSIS_CATEGORIES, ∃ d12 d21,
         lookupCat cat m12.categories = some d12 ∧
         lookupCat cat m21.categories = some d21 ∧
         d12.risk_level = d21.risk_level ∧
         List.Perm d12.quoted_phrases d21.quoted_phrases ∧
         ∃ ps12 ps21, List.Perm ps12 ps21 ∧
           d12.findings = joinFindings ps12 ∧ d21.findings = joinFindings ps21) ∧
    (∀ m12, merge_analysis_results [chunkResultA, chunkResultB] = some m12 →
       merge_analysis_results [m12.categories, chunkResultC] =
       merge_analysis_results [chunkResultA, chunkResultB, chunkResultC]) :=
  merge_comm_assoc chunkResultA chunkResultB chunkResultC
    (by decide) (by decide) (by decide)

/-- C8 counterexample: the two single-category results with findings `"A"` and
`"B"` merge to the findings string `"A\nB"` in one order and `"B\nA"` in the
other: `merge_analysis_results` is not commutative as stated. -/
theorem merge_comm_counterexample :
    (merge_analysis_results [chunkResultA, chunkResultB]).bind
      (fun m => lookupCat "Payment Terms" m.categories) =
      some ⟨"High", "A\nB", [⟨"p", false⟩, ⟨"q", true⟩]⟩ ∧
    (merge_analysis_results [chunkResultB, chunkResultA]).bind
      (fun m => lookupCat "Payment Terms" m.categories) =
      some ⟨"High", "B\nA", [⟨"q", true⟩, ⟨"p", false⟩]⟩ ∧
    ("A\nB" : String) ≠ "B\nA" :=
  ⟨by decide, by decide, by decide⟩

end TC
